import Mathlib

/-!
Verification development for `feediverse.py`: a shallow embedding of the
ingestion–filter–dedupe–publish pipeline (functions `main`, `get_feed`,
`update_dupes`, `get_entry`, `cleanup`, `find_images`, `save_state`,
`read_state`) together with theorems about the embedded definitions.

Modelling conventions:
* Python strings are sequences of code points, embedded as `List Char`
  (`PyStr`).  Slicing `s[:n]` is `List.take n`.
* Timezone-aware `datetime` values are totally ordered instants, embedded
  as `Int` (`Instant`); `datetime(MINYEAR, 1, 1, tzinfo=utc)` is the
  constant `minInstant` and valid instants are those `≥ minInstant`.
  `isoformat`/`dateutil.parser.parse` are embedded as an injective textual
  encoding of the instant and its inverse; the development depends only on
  the round-trip property, which the real pair also has for aware datetimes.
* HTML handled by the external BeautifulSoup library is embedded as an
  `HtmlDoc`: the raw markup string, its `get_text()` extraction, and the
  `src` attributes of its `<img>` elements in document order.
* External network effects (posting, media upload, sleeping, printing,
  state-file writes) are recorded as an explicit event trace (`Event`).
* `feedparser.parse` does not raise on network or parse failures; it
  returns a document whose `entries` list is empty (with `bozo` set), so a
  failed fetch is embedded as `FetchResult.failed` with no entries.
-/

abbrev PyStr := List Char

abbrev Instant := Int

/-- The instant `datetime(MINYEAR, 1, 1, 0, 0, 0, 0, timezone.utc)` used as the
default watermark in `read_state` (line 209).  Valid instants are `≥ minInstant`;
the exact magnitude of the constant is irrelevant to the development. -/
def minInstant : Instant := -1000000000

/-- A timezone-aware datetime is representable iff it is not before `datetime.min`. -/
def Instant.valid (t : Instant) : Prop := minInstant ≤ t

/-- `update_dupes` (lines 124–127):
`if len(dupes) > 50: del dupes[0]` followed by `dupes.append(new)`.
Note the trim happens before the append. -/
def update_dupes {α : Type} (dupes : List α) (new : α) : List α :=
  if dupes.length > 50 then dupes.tail ++ [new] else dupes ++ [new]

/-- Python `dict` lookup over an association list (first binding wins). -/
def dictGet {β : Type} : List (PyStr × β) → PyStr → Option β
  | [], _ => none
  | (k', v) :: rest, k => if k' = k then some v else dictGet rest k

/-- Python `dict` assignment `m[k] = v` over an association list. -/
def dictSet {β : Type} : List (PyStr × β) → PyStr → β → List (PyStr × β)
  | [], k, v => [(k, v)]
  | (k', v') :: rest, k, v =>
      if k' = k then (k, v) :: rest else (k', v') :: dictSet rest k v

/-- `defaultdict` read `m[k]`: returns the stored value, or materialises the
key with the default `d` (as Python's `defaultdict.__getitem__` does). -/
def ddRead {β : Type} (d : β) (m : List (PyStr × β)) (k : PyStr) :
    β × List (PyStr × β) :=
  match dictGet m k with
  | some v => (v, m)
  | none => (d, m ++ [(k, d)])

/-- The ten decimal digit characters. -/
def digitChar (d : Nat) : Char := Char.ofNat (48 + d)

/-- Value of a decimal digit character, `none` on anything else. -/
def digitVal (c : Char) : Option Nat :=
  if 48 ≤ c.toNat ∧ c.toNat ≤ 57 then some (c.toNat - 48) else none

/-- Most-significant-first decimal digits of `n`, with explicit fuel so that the
recursion is structural. -/
def natDigitsGo : Nat → Nat → List Char
  | 0, _ => []
  | fuel + 1, n =>
      if n < 10 then [digitChar n]
      else natDigitsGo fuel (n / 10) ++ [digitChar (n % 10)]

/-- Decimal rendering of a natural number. -/
def natToDigits (n : Nat) : List Char := natDigitsGo (n + 1) n

/-- Accumulator-style decimal parser. -/
def parseNatAux : List Char → Nat → Option Nat
  | [], acc => some acc
  | c :: cs, acc =>
      match digitVal c with
      | some d => parseNatAux cs (acc * 10 + d)
      | none => none

/-- Parse a non-empty all-digit string. -/
def parseNat (s : List Char) : Option Nat :=
  match s with
  | [] => none
  | _ :: _ => parseNatAux s 0

/-- `datetime.isoformat` (line 203), embedded as an injective textual encoding
of the instant (sign and decimal digits). -/
def isoformat (t : Instant) : PyStr :=
  if t < 0 then '-' :: natToDigits t.natAbs else natToDigits t.natAbs

/-- `dateutil.parser.parse` applied to a serialized timestamp (line 216),
embedded as the inverse of `isoformat`; `none` models the `ValueError` raised
on unparsable input. -/
def parseDt : PyStr → Option Instant
  | [] => none
  | c :: cs =>
      if c = '-' then (parseNat cs).map (fun n => -(n : Int))
      else (parseNat (c :: cs)).map (fun n => (n : Int))

/-- The non-breaking space character `\xa0`. -/
def nbsp : Char := Char.ofNat 160

/-- Characters stripped by Python's `str.strip()` (the ASCII whitespace set
plus the non-breaking space; enough for the texts this development uses). -/
def isPyWs (c : Char) : Bool :=
  c = ' ' || c = '\t' || c = '\n' || c = '\r' ||
  c = Char.ofNat 11 || c = Char.ofNat 12 || c = nbsp

/-- Replace every maximal run of characters satisfying `p` by `r`
(the effect of `re.sub(p+, r, text)` for a single-character class `p`). -/
def collapseRuns (p : Char → Bool) (r : List Char) : List Char → List Char
  | [] => []
  | [c] => if p c then r else [c]
  | c :: c2 :: rest =>
      if p c then
        if p c2 then collapseRuns p r (c2 :: rest)
        else r ++ c2 :: collapseRuns p r rest
      else c :: collapseRuns p r (c2 :: rest)

/-- Helper for `re.sub(' +\n', '\n', text)`: working over the reversed string,
drop the spaces that immediately follow a newline. -/
def stripSpaceNlRev : Bool → List Char → List Char
  | _, [] => []
  | afterNl, c :: rest =>
      if c = '\n' then '\n' :: stripSpaceNlRev true rest
      else if afterNl && c = ' ' then stripSpaceNlRev true rest
      else c :: stripSpaceNlRev false rest

/-- `re.sub(' +\n', '\n', text)` (line 158). -/
def stripSpaceNl (l : List Char) : List Char :=
  (stripSpaceNlRev false l.reverse).reverse

/-- `re.sub('\n\n\n+', '\n\n', text)` (line 159): every run of `n ≥ 3`
newlines becomes exactly two; `k` counts the newlines already emitted for the
current run. -/
def collapseNl3 : Nat → List Char → List Char
  | _, [] => []
  | k, c :: rest =>
      if c = '\n' then
        if k ≥ 2 then collapseNl3 k rest
        else '\n' :: collapseNl3 (k + 1) rest
      else c :: collapseNl3 0 rest

/-- Python `str.strip()`. -/
def pyStrip (l : List Char) : List Char :=
  ((l.dropWhile isPyWs).reverse.dropWhile isPyWs).reverse

/-- An HTML fragment as seen through BeautifulSoup: the raw markup (whose
Python truthiness is emptiness), its `get_text()` plain-text extraction, and
the `src` attribute of each `<img>` element in document order (`none` when the
attribute is missing). -/
structure HtmlDoc where
  raw : PyStr
  innerText : PyStr
  imgSrcs : List (Option PyStr)
deriving DecidableEq, Repr

/-- The empty HTML fragment (the `''` defaults in `get_entry`). -/
def emptyDoc : HtmlDoc := ⟨[], [], []⟩

/-- `cleanup` (lines 153–160): strip markup, collapse `\xa0` runs to one
space, collapse runs of two or more spaces to one, strip spaces before
newlines, collapse three or more newlines to two, and strip the ends. -/
def cleanup (d : HtmlDoc) : PyStr :=
  pyStrip (collapseNl3 0 (stripSpaceNl
    (collapseRuns (fun c => c = ' ') [' ']
      (collapseRuns (fun c => c = nbsp) [' '] d.innerText))))

/-- A feed entry tag (`entry.get('tags', [])` elements; only `term` is read). -/
structure Tag where
  term : PyStr
deriving DecidableEq, Repr

/-- One block of `entry.get('content', '')`; `value` is `none` when the block
has no `'value'` key (the `.get('value', '')` default). -/
structure ContentBlock where
  value : Option HtmlDoc
deriving DecidableEq, Repr

/-- A raw feedparser entry, restricted to the keys `get_entry` and `get_feed`
read.  `updated` is the parsed update timestamp; the development assumes the
entry carries a parsable `updated` value (`dateutil.parser.parse` raising on a
missing or garbled one is the error condition of spec §7) and that
`updated_parsed` — the sort key on line 120 — denotes the same instant. -/
structure RawEntry where
  id : PyStr
  link : PyStr
  links : List PyStr
  comments : PyStr
  title : HtmlDoc
  summary : HtmlDoc
  content : List ContentBlock
  tags : List Tag
  updated : Instant
deriving DecidableEq, Repr

/-- One hashtag (line 132–133): `'#' + term.replace(' ', '_').replace('.', '').replace('-', '')`. -/
def hashtagOf (t : Tag) : PyStr :=
  '#' :: ((t.term.map (fun c => if c = ' ' then '_' else c)).filter
    (fun c => !(c = '.' || c = '-')))

/-- `find_images` (lines 176–186): falsy (empty) markup returns `None`;
otherwise collect the truthy `src` attributes of the `<img>` elements,
de-duplicating while keeping first-seen order. -/
def find_images (html : HtmlDoc) : Option (List PyStr) :=
  if html.raw = [] then none
  else some (html.imgSrcs.foldl (fun urls o =>
    match o with
    | none => urls
    | some url => if url ≠ [] ∧ url ∉ urls then urls ++ [url] else urls) [])

/-- A normalized entry: the dict built by `get_entry` (lines 140–151). -/
structure Entry where
  url : PyStr
  link : PyStr
  links : List PyStr
  comments : PyStr
  title : PyStr
  summary : PyStr
  content : PyStr
  hashtags : PyStr
  images : Option (List PyStr)
  updated : Instant
deriving DecidableEq, Repr

/-- `get_entry` (lines 129–151). -/
def get_entry (e : RawEntry) : Entry :=
  { url := e.id
    link := e.link
    links := e.links
    comments := e.comments
    title := cleanup e.title
    summary := cleanup e.summary
    content :=
      match e.content with
      | [] => []
      | c :: _ => cleanup (c.value.getD emptyDoc)
    hashtags := List.intercalate [' '] (e.tags.map hashtagOf)
    images := find_images e.summary
    updated := e.updated }

/-- The named fields of the entry dict, as usable in a template or as the
dedupe tag (`entry[dedupe_field]`, `template.format(**entry)`). -/
inductive FieldName
  | url | link | links | comments | title | summary | content | hashtags
  | images | updated
deriving DecidableEq, Repr

/-- Python `str()` of a datetime, embedded by the same textual encoding as
`isoformat`. -/
def strOfInstant (t : Instant) : PyStr := isoformat t

/-- Python `repr` of a string, as it appears inside `str()` of a list
(escaping of quotes inside the value is not modelled). -/
def pyReprStr (s : PyStr) : PyStr := '\'' :: s ++ ['\'']

/-- Python `str()` of a list of strings. -/
def pyStrOfList (l : List PyStr) : PyStr :=
  '[' :: (List.intercalate (", ".toList) (l.map pyReprStr)) ++ [']']

/-- The string `template.format(**entry)` substitutes for `{field}`; the
non-string fields (`links`, `images`, `updated`) go through Python `str()`. -/
def fieldValue (e : Entry) : FieldName → PyStr
  | .url => e.url
  | .link => e.link
  | .links => pyStrOfList e.links
  | .comments => e.comments
  | .title => e.title
  | .summary => e.summary
  | .content => e.content
  | .hashtags => e.hashtags
  | .images =>
      match e.images with
      | none => "None".toList
      | some l => pyStrOfList l
  | .updated => strOfInstant e.updated

/-- A piece of a format template: literal text or a `{field}` placeholder. -/
inductive TmplPart
  | lit (s : PyStr)
  | field (f : FieldName)
deriving DecidableEq, Repr

/-- A Python format string with named placeholders drawn from the entry dict. -/
abbrev Template := List TmplPart

/-- `template.format(**entry)` (line 69, before the slice). -/
def renderTemplate (t : Template) (e : Entry) : PyStr :=
  (t.map (fun p =>
    match p with
    | .lit s => s
    | .field f => fieldValue e f)).flatten

/-- `feed['template'].format(**entry)[:499]` (line 69). -/
def entryText (t : Template) (e : Entry) : PyStr :=
  (renderTemplate t e).take 499

/-- Outcome of `feedparser.parse(feed_url)` (line 109): the entry list of a
successfully fetched document, or a network/parse failure.  feedparser never
raises on failure; it returns a document whose `entries` is empty. -/
inductive FetchResult
  | ok (entries : List RawEntry)
  | failed
deriving Repr

/-- The `feed.entries` list that `get_feed` iterates over. -/
def parsedEntries : FetchResult → List RawEntry
  | .ok es => es
  | .failed => []

/-- Comparison used for the chronological sort (line 120's
`key=lambda e: e.updated_parsed`, a stable sort by update time). -/
def entryLE (a b : RawEntry) : Prop := a.updated ≤ b.updated

instance : DecidableRel entryLE := fun a b => Int.decLe a.updated b.updated

instance : IsTotal RawEntry entryLE := ⟨fun a b => Int.le_total a.updated b.updated⟩

instance : IsTrans RawEntry entryLE := ⟨fun _ _ _ h h' => Int.le_trans h h'⟩

/-- `entries.sort(key=lambda e: e.updated_parsed)` (line 120).  Python's sort
is stable; a stable sort is unique, so it is embedded as stable insertion
sort. -/
def sortByUpdated (l : List RawEntry) : List RawEntry :=
  List.insertionSort entryLE l

/-- The future-date filter (lines 112–114): keep entries whose update
timestamp is not after `now`, the wall clock at fetch start. -/
def keepNotFuture (now : Instant) (e : RawEntry) : Bool :=
  decide (e.updated ≤ now)

/-- The watermark filter (lines 116–118): keep entries strictly newer than
`last_update`. -/
def keepAfter (lu : Instant) (e : RawEntry) : Bool :=
  decide (lu < e.updated)

/-- Lines 112–118 of `get_feed`: the future-date filter applied first and
unconditionally, then — only when `last_update` is truthy — the watermark
filter (`none` embeds a falsy `last_update`). -/
def feedSelected (fr : FetchResult) (now : Instant) (last_update : Option Instant) :
    List RawEntry :=
  let entries := (parsedEntries fr).filter (keepNotFuture now)
  match last_update with
  | some lu => entries.filter (keepAfter lu)
  | none => entries

/-- `get_feed` (lines 108–122): filter, sort chronologically, normalize. -/
def get_feed (fr : FetchResult) (now : Instant) (last_update : Option Instant) :
    List Entry :=
  (sortByUpdated (feedSelected fr now last_update)).map get_entry

/-- The dynamic value of `state['dupecheck']`: `read_state` builds a
feed-URL-to-list mapping (`defaultdict(list)`), but line 105 rebinds the slot
to a single feed's list. -/
inductive DupeVal
  | dict (m : List (PyStr × List PyStr))
  | list (l : List PyStr)
deriving DecidableEq, Repr

/-- The in-memory run state (the `state` dict of `main`). -/
structure RunState where
  updated : List (PyStr × Instant)
  dupecheck : DupeVal
deriving DecidableEq, Repr

/-- The state `read_state` builds before loading the file: empty
`defaultdict`s (lines 208–211). -/
def defaultState : RunState := ⟨[], .dict []⟩

/-- The watermark for feed `u` as observed through the `defaultdict`:
the stored value, or `minInstant` for an unseen feed. -/
def valueOf (s : RunState) (u : PyStr) : Instant :=
  (dictGet s.updated u).getD minInstant

/-- The dedupe ledger for feed `u` as observed through the `defaultdict`,
or `none` when the `dupecheck` slot no longer holds a mapping. -/
def dupesOf (s : RunState) (u : PyStr) : Option (List PyStr) :=
  match s.dupecheck with
  | .dict m => some ((dictGet m u).getD [])
  | .list _ => none

/-- The `"dupecheck"` slot of the serialized state file: `json.dump` writes
whatever object the state holds — a mapping, or (after line 105) a bare list. -/
inductive DupeJson
  | dict (m : List (PyStr × List PyStr))
  | arr (l : List PyStr)
deriving DecidableEq, Repr

/-- The JSON document `save_state` writes: `"updated"` maps each feed URL to a
serialized timestamp string, `"dupecheck"` holds the dupecheck object. -/
structure StateDoc where
  updated : List (PyStr × PyStr)
  dupecheck : DupeJson
deriving DecidableEq, Repr

/-- `save_state` (lines 201–205): copy the state, replace each watermark by
its `isoformat` string, and dump to JSON. -/
def save_state (s : RunState) : StateDoc :=
  { updated := s.updated.map (fun kv => (kv.1, isoformat kv.2))
    dupecheck :=
      match s.dupecheck with
      | .dict m => .dict m
      | .list l => .arr l }

/-- The Python exceptions the embedded pipeline can raise. -/
inductive PyErr
  | typeError
  | valueError
deriving DecidableEq, Repr

/-- Line 216: `{k: dateutil.parser.parse(v) for k, v in st["updated"].items()}`;
an unparsable string raises `ValueError`. -/
def parseUpdated : List (PyStr × PyStr) → Except PyErr (List (PyStr × Instant))
  | [] => .ok []
  | (k, s) :: rest =>
      match parseDt s with
      | none => .error .valueError
      | some t =>
          match parseUpdated rest with
          | .error e => .error e
          | .ok m => .ok ((k, t) :: m)

/-- `read_state` (lines 207–222).  A missing file (`none`) is the
`FileNotFoundError` path and yields the default state.  Otherwise the
`"updated"` strings are parsed back into instants and the `"dupecheck"` object
is merged with `dict.update`.  `dict.update` over a bare list (the shape line
105 produces) treats every element as a key/value pair: it is a no-op on an
empty list, and raises `ValueError` on the dedupe strings the pipeline stores
(they are not 2-item sequences; the degenerate 2-character case, which Python
would turn into char-to-char entries, is not reachable with the values used
here and is folded into the error case). -/
def read_state (doc : Option StateDoc) : Except PyErr RunState :=
  match doc with
  | none => .ok defaultState
  | some d =>
      match parseUpdated d.updated with
      | .error e => .error e
      | .ok upd =>
          match d.dupecheck with
          | .dict m => .ok ⟨upd, .dict m⟩
          | .arr [] => .ok ⟨upd, .dict []⟩
          | .arr (_ :: _) => .error .valueError

/-- Per-feed configuration (`config['feeds']` elements as read by `main`). -/
structure FeedConfig where
  url : PyStr
  template : Template
  include_images : Bool
deriving Repr

/-- The command-line flags `main` consults.  `dedupe` is `none` when the
`--dedupe` tag is the empty (falsy) default. -/
structure Args where
  dry_run : Bool
  verbose : Bool
  delay : Bool
  dedupe : Option FieldName
deriving Repr

/-- The observable actions of one run, in order: console prints, media
uploads (`requests.get` + `masto.media_post`), status posts
(`masto.status_post`), ledger writes, sleeps, and state-file writes. -/
inductive Event
  | print (s : PyStr)
  | mediaUpload (url : PyStr)
  | publish (text : PyStr) (mediaCount : Nat)
  | recordDupe (v : PyStr)
  | sleep (secs : Nat)
  | save (doc : StateDoc)
deriving DecidableEq, Repr

/-- Python truthiness of `entry['images']`: `None` and `[]` are falsy. -/
def pyTruthyImages : Option (List PyStr) → Bool
  | none => false
  | some [] => false
  | some (_ :: _) => true

/-- Lines 85–87: the image URLs actually fetched — only when the feed opts in
and the entry's `images` value is truthy, and capped at the first 4. -/
def imageList (feed : FeedConfig) (e : Entry) : List PyStr :=
  if feed.include_images && pyTruthyImages e.images then (e.images.getD []).take 4
  else []

/-- `random.randrange(10, 30)` (line 99): a uniformly distributed integer of
`range(10, 30)`, i.e. `10 ≤ d < 30`; `r` is the randomness oracle. -/
def delayOf (r : Nat) : Nat := 10 + r % 20

/-- The message of line 81. -/
def skipMsg (text : PyStr) (f : FieldName) : PyStr :=
  "Skipping dupe post: ".toList ++ text ++ " based on dedupe field ".toList ++
    (match f with
     | .url => "url".toList
     | .link => "link".toList
     | .links => "links".toList
     | .comments => "comments".toList
     | .title => "title".toList
     | .summary => "summary".toList
     | .content => "content".toList
     | .hashtags => "hashtags".toList
     | .images => "images".toList
     | .updated => "updated".toList)

/-- The message of line 100. -/
def delayMsg (d : Nat) : PyStr :=
  "Delaying...".toList ++ natToDigits d ++ " seconds...".toList

/-- The message of line 66. -/
def fetchMsg (u : PyStr) (np : Instant) : PyStr :=
  "fetching ".toList ++ u ++ " entries since ".toList ++ strOfInstant np

/-- Lines 85–101 for an entry that reaches the publish step: image fetches and
uploads, the status post, and the optional randomized pause. -/
def publishEvents (args : Args) (feed : FeedConfig) (r : Nat) (e : Entry) :
    List Event :=
  (imageList feed e).map Event.mediaUpload ++
  [Event.publish (entryText feed.template e) (imageList feed e).length] ++
  (if args.delay then [Event.print (delayMsg (delayOf r)), Event.sleep (delayOf r)]
   else [])

/-- The mutable locals of the per-entry loop: `newest_post` and `dupes`. -/
structure LoopSt where
  newest_post : Instant
  dupes : List PyStr
deriving DecidableEq, Repr

/-- One iteration of the entry loop (lines 67–101): advance the watermark
candidate, render, and either print (dry run), skip (ledger hit), or record
and publish.  `r` is the randomness consumed by the optional delay. -/
def processEntry (args : Args) (feed : FeedConfig) (r : Nat) (s : LoopSt)
    (e : Entry) : LoopSt × List Event :=
  let np := max s.newest_post e.updated
  let text := entryText feed.template e
  if args.dry_run then (⟨np, s.dupes⟩, [.print text])
  else
    let vEvs : List Event := if args.verbose then [.print text] else []
    match args.dedupe with
    | some f =>
        if fieldValue e f ∈ s.dupes then
          (⟨np, s.dupes⟩,
            vEvs ++ (if args.verbose then [.print (skipMsg text f)] else []))
        else
          (⟨np, update_dupes s.dupes (fieldValue e f)⟩,
            vEvs ++ [.recordDupe (fieldValue e f)] ++ publishEvents args feed r e)
    | none => (⟨np, s.dupes⟩, vEvs ++ publishEvents args feed r e)

/-- The entry loop `for entry in get_feed(...)` (line 67); `rng i` is the
randomness consumed for the `i`-th entry. -/
def entryLoop (args : Args) (feed : FeedConfig) (rng : Nat → Nat) :
    Nat → List Entry → LoopSt × List Event → LoopSt × List Event
  | _, [], acc => acc
  | i, e :: rest, acc =>
      let r := processEntry args feed (rng i) acc.1 e
      entryLoop args feed rng (i + 1) rest (r.1, acc.2 ++ r.2)

/-- One iteration of the feed loop (lines 62–106): read the watermark and
ledger through the `defaultdict`s, fetch and filter, run the entry loop, and —
unless this is a dry run — write the watermark back, rebind `state['dupecheck']`
to this feed's list (line 105), and save the state file.  Reading
`state['dupecheck'][url]` after the slot was rebound to a list raises
`TypeError` (a list cannot be indexed by a string). -/
def processFeed (args : Args) (st : RunState) (feed : FeedConfig)
    (fetched : FetchResult) (now : Instant) (rng : Nat → Nat) :
    Except PyErr (RunState × List Event) :=
  let rd := ddRead minInstant st.updated feed.url
  match st.dupecheck with
  | .list _ => .error .typeError
  | .dict m =>
      let rdd := ddRead [] m feed.url
      let st1 : RunState := ⟨rd.2, .dict rdd.2⟩
      let fetchEvs : List Event :=
        if args.verbose then [.print (fetchMsg feed.url rd.1)] else []
      let entries := get_feed fetched now (some rd.1)
      let res := entryLoop args feed rng 0 entries (⟨rd.1, rdd.1⟩, fetchEvs)
      if args.dry_run then .ok (st1, res.2)
      else
        let st2 : RunState :=
          ⟨dictSet st1.updated feed.url res.1.newest_post, .list res.1.dupes⟩
        .ok (st2, res.2 ++ [.save (save_state st2)])

/-- The inputs consumed per configured feed: its configuration, the fetch
outcome, the wall clock at its fetch, and its randomness oracle. -/
abbrev FeedInput := FeedConfig × FetchResult × Instant × (Nat → Nat)

/-- The feed loop of `main` over a list of configured feeds, propagating the
state from feed to feed and stopping at the first uncaught exception. -/
def runMany (args : Args) : List FeedInput → RunState → Except PyErr RunState
  | [], st => .ok st
  | (feed, fr, now, rng) :: rest, st =>
      match processFeed args st feed fr now rng with
      | .error e => .error e
      | .ok (st', _) => runMany args rest st'

/-- A one-character title fragment used by the concrete scenarios below. -/
def docT : HtmlDoc := ⟨"t".toList, "t".toList, []⟩

/-- A concrete raw entry: link `https://x`, updated at instant 3. -/
def entryA : RawEntry :=
  ⟨"e1".toList, "https://x".toList, [], [], docT, emptyDoc, [], [], 3⟩

/-- A second entry with the same link but a later timestamp (instant 5). -/
def entryB : RawEntry :=
  ⟨"e2".toList, "https://x".toList, [], [], docT, emptyDoc, [], [], 5⟩

/-- A future-dated raw entry (updated at instant 11). -/
def entryFut : RawEntry :=
  ⟨"e9".toList, "https://x".toList, [], [], docT, emptyDoc, [], [], 11⟩

/-- A concrete feed: URL `f`, template `{title}`, images off. -/
def feedA : FeedConfig := ⟨"f".toList, [TmplPart.field FieldName.title], false⟩

/-- Flags of a non-dry publishing run deduping on `link`. -/
def argsPub : Args := ⟨false, false, false, some FieldName.link⟩

/-- Flags of a dry run. -/
def argsDry : Args := ⟨true, false, false, none⟩

/-- Flags of a non-dry throttled run without dedupe. -/
def argsDelay : Args := ⟨false, false, true, none⟩

/-- A constant randomness oracle. -/
def rng0 : Nat → Nat := fun _ => 0

/-- The state `processFeed argsPub defaultState feedA (.ok [entryA]) 100 rng0`
leaves behind: the watermark advanced to 3, and the `dupecheck` slot rebound
to the single recorded link (line 105). -/
def stB : RunState := ⟨[("f".toList, 3)], DupeVal.list ["https://x".toList]⟩

/-- The events of that run: ledger write, publish, state save. -/
def evsB : List Event :=
  [Event.recordDupe "https://x".toList, Event.publish "t".toList 0,
   Event.save (save_state stB)]

/-- The state a dry (or empty-fetch) run of `feedA` leaves behind from the
default state: only the `defaultdict` reads materialised their keys. -/
def stDryOut : RunState :=
  ⟨[("f".toList, minInstant)], DupeVal.dict [("f".toList, [])]⟩

/-! ## Helper lemmas -/

theorem digitVal_digitChar {d : Nat} (h : d < 10) :
    digitVal (digitChar d) = some d := by
  interval_cases d <;> decide

theorem digitChar_ne_minus {d : Nat} (h : d < 10) : digitChar d ≠ '-' := by
  interval_cases d <;> decide

theorem parseNatAux_append (xs ys : List Char) (acc : Nat) :
    parseNatAux (xs ++ ys) acc =
      match parseNatAux xs acc with
      | some a => parseNatAux ys a
      | none => none := by
  induction xs generalizing acc with
  | nil => rfl
  | cons c cs ih =>
      simp only [List.cons_append, parseNatAux]
      cases digitVal c with
      | none => rfl
      | some d => exact ih _

theorem parse_natDigitsGo :
    ∀ (fuel n acc : Nat), n < 10 ^ fuel →
      parseNatAux (natDigitsGo fuel n) acc =
        some (acc * 10 ^ (natDigitsGo fuel n).length + n) := by
  intro fuel
  induction fuel with
  | zero =>
      intro n acc h
      have hn : n = 0 := by simpa using Nat.lt_one_iff.mp (by simpa using h)
      subst hn
      simp [natDigitsGo, parseNatAux]
  | succ fuel ih =>
      intro n acc h
      by_cases hn : n < 10
      · simp only [natDigitsGo, if_pos hn, parseNatAux, digitVal_digitChar hn]
        simp
      · have hdiv : n / 10 < 10 ^ fuel := by
          have : n < 10 ^ fuel * 10 := by
            have := h
            rw [pow_succ] at this
            exact this
          exact Nat.div_lt_of_lt_mul (by omega)
        simp only [natDigitsGo, if_neg hn, parseNatAux_append, ih (n / 10) acc hdiv]
        simp only [parseNatAux, digitVal_digitChar (Nat.mod_lt n (by omega))]
        have hmod := Nat.div_add_mod n 10
        simp only [List.length_append, List.length_cons, List.length_nil]
        congr 1
        ring_nf
        omega

theorem natDigitsGo_ne_nil (fuel n : Nat) : natDigitsGo (fuel + 1) n ≠ [] := by
  simp only [natDigitsGo]
  split
  · simp
  · simp

theorem natDigitsGo_head_digit :
    ∀ (fuel n : Nat), natDigitsGo fuel n = [] ∨
      ∃ d cs, d < 10 ∧ natDigitsGo fuel n = digitChar d :: cs := by
  intro fuel
  induction fuel with
  | zero => intro n; left; rfl
  | succ fuel ih =>
      intro n
      right
      by_cases hn : n < 10
      · exact ⟨n, [], hn, by simp [natDigitsGo, hn]⟩
      · rcases ih (n / 10) with h | ⟨d, cs, hd, heq⟩
        · exact ⟨n % 10, [], Nat.mod_lt n (by omega),
            by simp [natDigitsGo, hn, h]⟩
        · exact ⟨d, cs ++ [digitChar (n % 10)], hd,
            by simp [natDigitsGo, hn, heq]⟩

theorem natToDigits_head_digit (n : Nat) :
    ∃ d cs, d < 10 ∧ natToDigits n = digitChar d :: cs := by
  rcases natDigitsGo_head_digit (n + 1) n with h | h
  · exact absurd h (natDigitsGo_ne_nil n n)
  · exact h

theorem parseNat_natToDigits (n : Nat) : parseNat (natToDigits n) = some n := by
  have hlt : n < 10 ^ (n + 1) := by
    calc n < 10 ^ n := Nat.lt_pow_self (by omega) n
    _ ≤ 10 ^ (n + 1) := Nat.pow_le_pow_right (by omega) (Nat.le_succ n)
  have hparse : parseNatAux (natDigitsGo (n + 1) n) 0 = some n := by
    simpa using parse_natDigitsGo (n + 1) n 0 hlt
  obtain ⟨d, cs, hd, heq⟩ := natToDigits_head_digit n
  calc parseNat (natToDigits n) = parseNatAux (natToDigits n) 0 := by rw [heq]; rfl
  _ = some n := hparse

theorem parseDt_isoformat (t : Instant) : parseDt (isoformat t) = some t := by
  unfold isoformat
  by_cases ht : t < 0
  · rw [if_pos ht]
    have h1 : parseDt ('-' :: natToDigits t.natAbs) =
        (parseNat (natToDigits t.natAbs)).map (fun n => -(n : Int)) := by
      simp [parseDt]
    rw [h1, parseNat_natToDigits]
    exact congrArg some (show -((t.natAbs : Nat) : Int) = t by
      have h2 : (((-t).natAbs : Nat) : Int) = -t :=
        Int.natAbs_of_nonneg (neg_nonneg.mpr (le_of_lt ht))
      rw [Int.natAbs_neg] at h2
      rw [h2, neg_neg])
  · rw [if_neg ht]
    obtain ⟨d, cs, hd, heq⟩ := natToDigits_head_digit t.natAbs
    rw [heq]
    have h1 : parseDt (digitChar d :: cs) =
        (parseNat (digitChar d :: cs)).map (fun n => (n : Int)) := by
      simp [parseDt, digitChar_ne_minus hd]
    rw [h1, ← heq, parseNat_natToDigits]
    exact congrArg some (show ((t.natAbs : Nat) : Int) = t from
      Int.natAbs_of_nonneg (not_lt.mp ht))

theorem dictGet_dictSet {β : Type} (m : List (PyStr × β)) (k u : PyStr) (v : β) :
    dictGet (dictSet m k v) u = if k = u then some v else dictGet m u := by
  induction m with
  | nil => simp [dictSet, dictGet]
  | cons kv rest ih =>
      obtain ⟨k', v'⟩ := kv
      by_cases h : k' = k
      · subst h
        simp only [dictSet, if_pos rfl, dictGet]
        by_cases hu : k' = u
        · simp [hu]
        · simp [hu]
      · simp only [dictSet, if_neg h, dictGet]
        by_cases hu : k' = u
        · subst hu
          have : ¬k = k' := fun hh => h hh.symm
          simp [this]
        · simp [hu, ih]

theorem dictGet_append_one {β : Type} (m : List (PyStr × β)) (k u : PyStr) (d : β) :
    dictGet (m ++ [(k, d)]) u =
      match dictGet m u with
      | some v => some v
      | none => if k = u then some d else none := by
  induction m with
  | nil => simp [dictGet]
  | cons kv rest ih =>
      obtain ⟨k', v'⟩ := kv
      by_cases hu : k' = u
      · simp [dictGet, hu]
      · simp [dictGet, hu, ih]

theorem ddRead_fst {β : Type} (d : β) (m : List (PyStr × β)) (k : PyStr) :
    (ddRead d m k).1 = (dictGet m k).getD d := by
  unfold ddRead
  cases h : dictGet m k <;> simp

theorem getD_ddRead {β : Type} (d : β) (m : List (PyStr × β)) (k u : PyStr) :
    (dictGet (ddRead d m k).2 u).getD d = (dictGet m u).getD d := by
  unfold ddRead
  cases h : dictGet m k with
  | some v => rfl
  | none =>
      simp only [dictGet_append_one]
      cases hu : dictGet m u with
      | some v => rfl
      | none =>
          by_cases hk : k = u
          · simp [hk]
          · simp [hk]

theorem foldl_update_dupes_drop {α : Type} (vs : List α) :
    vs.foldl update_dupes [] = vs.drop (vs.length - 51) := by
  induction vs using List.reverseRecOn with
  | nil => rfl
  | append_singleton vs v ih =>
      rw [List.foldl_append, List.foldl_cons, List.foldl_nil, ih]
      by_cases h : vs.length ≤ 50
      · have h0 : vs.length - 51 = 0 := by omega
        have h1 : vs.length + 1 - 51 = 0 := by
          simp only [List.length_append, List.length_cons, List.length_nil] at *
          omega
        rw [h0, List.drop_zero]
        unfold update_dupes
        rw [if_neg (by omega)]
        simp [h1]
      · have hlen : (vs.drop (vs.length - 51)).length = 51 := by
          rw [List.length_drop]
          omega
        unfold update_dupes
        rw [if_pos (by omega)]
        rw [List.tail_drop]
        have harith : vs.length - 51 + 1 = vs.length - 50 := by omega
        rw [harith]
        have h2 : (vs ++ [v]).length - 51 = vs.length - 50 := by
          simp only [List.length_append, List.length_cons, List.length_nil]
          omega
        rw [h2, List.drop_append_of_le_length (by omega)]

theorem filter_updated_orderedInsert (t : Instant) (a : RawEntry)
    (l : List RawEntry) :
    (List.orderedInsert entryLE a l).filter (fun e => decide (e.updated = t)) =
      if a.updated = t then
        a :: l.filter (fun e => decide (e.updated = t))
      else l.filter (fun e => decide (e.updated = t)) := by
  induction l with
  | nil =>
      simp only [List.orderedInsert, List.filter]
      by_cases h : a.updated = t
      · simp [h]
      · simp [h]
  | cons b l ih =>
      simp only [List.orderedInsert]
      by_cases hle : entryLE a b
      · rw [if_pos hle]
        by_cases h : a.updated = t <;> simp [List.filter, h]
      · rw [if_neg hle]
        have hbt : b.updated < a.updated := lt_of_not_le hle
        by_cases h : a.updated = t
        · have hb : ¬b.updated = t := by
            intro hbeq
            exact absurd (hbeq.trans h.symm) (ne_of_lt hbt)
          simp [List.filter, hb, ih, h]
        · by_cases hb : b.updated = t <;> simp [List.filter, hb, ih, h]

theorem filter_updated_sortByUpdated (t : Instant) (l : List RawEntry) :
    (sortByUpdated l).filter (fun e => decide (e.updated = t)) =
      l.filter (fun e => decide (e.updated = t)) := by
  induction l with
  | nil => rfl
  | cons x xs ih =>
      unfold sortByUpdated at ih
      show (List.orderedInsert entryLE x (List.insertionSort entryLE xs)).filter _ = _
      rw [filter_updated_orderedInsert]
      by_cases h : x.updated = t
      · simp [List.filter, h, ih]
      · simp [List.filter, h, ih]

theorem processEntry_newest (args : Args) (feed : FeedConfig) (r : Nat)
    (s : LoopSt) (e : Entry) :
    (processEntry args feed r s e).1.newest_post = max s.newest_post e.updated := by
  unfold processEntry
  dsimp only
  split
  · rfl
  · split
    · split
      · rfl
      · rfl
    · rfl

theorem entryLoop_newest (args : Args) (feed : FeedConfig) (rng : Nat → Nat) :
    ∀ (entries : List Entry) (i : Nat) (acc : LoopSt × List Event),
      (entryLoop args feed rng i entries acc).1.newest_post =
        entries.foldl (fun a e => max a e.updated) acc.1.newest_post := by
  intro entries
  induction entries with
  | nil => intro i acc; rfl
  | cons e rest ih =>
      intro i acc
      show (entryLoop args feed rng (i + 1) rest _).1.newest_post = _
      rw [ih]
      simp [processEntry_newest]

theorem le_foldl_max (l : List Entry) :
    ∀ a : Instant, a ≤ l.foldl (fun x e => max x e.updated) a := by
  induction l with
  | nil => intro a; exact le_refl a
  | cons e rest ih =>
      intro a
      exact le_trans (le_max_left a e.updated) (ih (max a e.updated))

/-! ## Claim theorems -/

set_option maxRecDepth 8000 in
/-- C1 counterexample: recording 51 distinct values into an initially empty
ledger leaves 51 stored values — more than the claimed bound of 50 — and the
1st recorded value is still present after the 51st record (eviction has not
happened yet), refuting both the 50-bound and the claimed append-then-trim
eviction point. -/
theorem C1_counterexample :
    ((List.range 51).foldl update_dupes ([] : List Nat)).length = 51 ∧
    ¬((List.range 51).foldl update_dupes ([] : List Nat)).length ≤ 50 ∧
    (0 : Nat) ∈ (List.range 51).foldl update_dupes ([] : List Nat) := by
  decide

/-- C1 (amended): `update_dupes` removes the oldest element before appending,
and only when the length before the append already exceeds 50.  Starting from
the empty ledger the program creates, a sequence of record calls leaves
exactly the last 51 recorded values in insertion order — so the length never
exceeds 51, and the 1st recorded value is evicted by the 52nd record, after
which the 2nd through 52nd are present in original order. -/
theorem C1_ledger_amended {α : Type} (vs : List α) :
    vs.foldl update_dupes [] = vs.drop (vs.length - 51) ∧
    (vs.foldl update_dupes []).length ≤ 51 := by
  refine ⟨foldl_update_dupes_drop vs, ?_⟩
  rw [foldl_update_dupes_drop vs, List.length_drop]
  omega

/-- C5: the post text is the rendered template truncated to a 499-character
prefix — exactly 499 characters when the rendering is longer, and the
untouched rendering when it is at or below 499. -/
theorem C5_render_truncation (t : Template) (e : Entry) :
    entryText t e = (renderTemplate t e).take 499 ∧
    (∃ rest, renderTemplate t e = entryText t e ++ rest) ∧
    (499 < (renderTemplate t e).length → (entryText t e).length = 499) ∧
    ((renderTemplate t e).length ≤ 499 → entryText t e = renderTemplate t e) := by
  refine ⟨rfl, ⟨(renderTemplate t e).drop 499,
    (List.take_append_drop 499 _).symm⟩, ?_, ?_⟩
  · intro h
    rw [show entryText t e = (renderTemplate t e).take 499 from rfl,
      List.length_take]
    exact min_eq_left (le_of_lt h)
  · intro h
    rw [show entryText t e = (renderTemplate t e).take 499 from rfl]
    exact List.take_of_length_le h

set_option maxRecDepth 8000 in
theorem C5_witness :
    (entryText [TmplPart.lit (List.replicate 500 'a')] (get_entry entryA)).length
      = 499 ∧
    entryText [TmplPart.lit "hi".toList] (get_entry entryA) =
      renderTemplate [TmplPart.lit "hi".toList] (get_entry entryA) :=
  ⟨(C5_render_truncation [TmplPart.lit (List.replicate 500 'a')]
      (get_entry entryA)).2.2.1 (by decide),
   (C5_render_truncation [TmplPart.lit "hi".toList] (get_entry entryA)).2.2.2
      (by decide)⟩

/-- C3: `get_feed` returns a chronologically ascending sequence, stable for
equal timestamps (equal-timestamp entries keep feed order), containing exactly
the normalized images of the fetched entries whose timestamp is not after the
fetch-start wall clock and — when the watermark is truthy — strictly after the
watermark; future-dated entries are excluded for every watermark value. -/
theorem C3_get_feed (fr : FetchResult) (now : Instant) (lu : Option Instant) :
    List.Pairwise (fun a b : Entry => a.updated ≤ b.updated) (get_feed fr now lu) ∧
    (sortByUpdated (feedSelected fr now lu)).Perm
      ((parsedEntries fr).filter (fun e => keepNotFuture now e &&
        (match lu with
         | some w => keepAfter w e
         | none => true))) ∧
    (∀ t, (sortByUpdated (feedSelected fr now lu)).filter
        (fun e => decide (e.updated = t)) =
      (feedSelected fr now lu).filter (fun e => decide (e.updated = t))) ∧
    (∀ e : RawEntry, now < e.updated → e ∉ sortByUpdated (feedSelected fr now lu)) ∧
    get_feed fr now lu = (sortByUpdated (feedSelected fr now lu)).map get_entry := by
  have hsorted : List.Pairwise entryLE (sortByUpdated (feedSelected fr now lu)) :=
    List.sorted_insertionSort entryLE (feedSelected fr now lu)
  have hperm : (sortByUpdated (feedSelected fr now lu)).Perm
      (feedSelected fr now lu) :=
    List.perm_insertionSort entryLE (feedSelected fr now lu)
  have hmemsel : ∀ e : RawEntry, e ∈ feedSelected fr now lu →
      e.updated ≤ now := by
    intro e he
    cases lu with
    | none =>
        have := (List.mem_filter.mp he).2
        exact of_decide_eq_true this
    | some w =>
        have h1 := (List.mem_filter.mp he).1
        have := (List.mem_filter.mp h1).2
        exact of_decide_eq_true this
  refine ⟨?_, ?_, ?_, ?_, rfl⟩
  · rw [show get_feed fr now lu =
      (sortByUpdated (feedSelected fr now lu)).map get_entry from rfl,
      List.pairwise_map]
    exact hsorted
  · refine hperm.trans ?_
    cases lu with
    | none =>
        show ((parsedEntries fr).filter (keepNotFuture now)).Perm _
        rw [show ((parsedEntries fr).filter (fun e =>
            keepNotFuture now e && true)) =
          (parsedEntries fr).filter (keepNotFuture now) from by
            apply List.filter_congr
            intro a _
            exact Bool.and_true _]
    | some w =>
        show (((parsedEntries fr).filter (keepNotFuture now)).filter
          (keepAfter w)).Perm _
        rw [List.filter_filter]
        rw [show ((parsedEntries fr).filter (fun a =>
            keepAfter w a && keepNotFuture now a)) =
          (parsedEntries fr).filter (fun a =>
            keepNotFuture now a && keepAfter w a) from by
            apply List.filter_congr
            intro a _
            exact Bool.and_comm _ _]
  · intro t
    exact filter_updated_sortByUpdated t (feedSelected fr now lu)
  · intro e he hmem
    have := hmemsel e (hperm.mem_iff.mp hmem)
    exact absurd this (not_le.mpr he)

theorem C3_witness :
    entryFut ∉ sortByUpdated (feedSelected (FetchResult.ok [entryFut]) 10 none) :=
  (C3_get_feed (FetchResult.ok [entryFut]) 10 none).2.2.2.1 entryFut (by decide)

/-- C6: with a dedupe field configured, in a non-dry run — on a ledger hit the
entry is skipped (no publish, no ledger write, the events are at most verbose
prints) while the watermark candidate still advances to
`max(candidate, entry.updated)`; on a miss the value is written to the ledger
and the record event strictly precedes the publish event. -/
theorem C6_dedupe (args : Args) (feed : FeedConfig) (r : Nat) (s : LoopSt)
    (e : Entry) (f : FieldName) (hdry : args.dry_run = false)
    (hded : args.dedupe = some f) :
    (fieldValue e f ∈ s.dupes →
       processEntry args feed r s e =
         (⟨max s.newest_post e.updated, s.dupes⟩,
          (if args.verbose then [Event.print (entryText feed.template e)] else []) ++
          (if args.verbose then
            [Event.print (skipMsg (entryText feed.template e) f)] else []))) ∧
    (fieldValue e f ∈ s.dupes →
       ∀ txt n, Event.publish txt n ∉ (processEntry args feed r s e).2) ∧
    (fieldValue e f ∈ s.dupes →
       ∀ v, Event.recordDupe v ∉ (processEntry args feed r s e).2) ∧
    (fieldValue e f ∉ s.dupes →
       (processEntry args feed r s e).1.dupes =
         update_dupes s.dupes (fieldValue e f) ∧
       (processEntry args feed r s e).1.newest_post =
         max s.newest_post e.updated ∧
       ∃ pre mid post, (processEntry args feed r s e).2 =
         pre ++ Event.recordDupe (fieldValue e f) :: mid ++
           Event.publish (entryText feed.template e)
             (imageList feed e).length :: post) := by
  have hskip : fieldValue e f ∈ s.dupes →
      processEntry args feed r s e =
        (⟨max s.newest_post e.updated, s.dupes⟩,
         (if args.verbose then [Event.print (entryText feed.template e)] else []) ++
         (if args.verbose then
           [Event.print (skipMsg (entryText feed.template e) f)] else [])) := by
    intro hmem
    unfold processEntry
    rw [hdry, hded]
    simp only [Bool.false_eq_true, if_false, if_pos hmem]
  refine ⟨hskip, ?_, ?_, ?_⟩
  · intro hmem txt n
    rw [hskip hmem]
    cases hv : args.verbose <;> simp
  · intro hmem v
    rw [hskip hmem]
    cases hv : args.verbose <;> simp
  · intro hmem
    have hrun : processEntry args feed r s e =
        (⟨max s.newest_post e.updated, update_dupes s.dupes (fieldValue e f)⟩,
         (if args.verbose then [Event.print (entryText feed.template e)] else []) ++
         [Event.recordDupe (fieldValue e f)] ++ publishEvents args feed r e) := by
      unfold processEntry
      rw [hdry, hded]
      simp only [Bool.false_eq_true, if_false, if_neg hmem]
    refine ⟨by rw [hrun], by rw [hrun], ?_⟩
    refine ⟨(if args.verbose then
      [Event.print (entryText feed.template e)] else []),
      (imageList feed e).map Event.mediaUpload,
      (if args.delay then
        [Event.print (delayMsg (delayOf r)), Event.sleep (delayOf r)] else []),
      ?_⟩
    rw [hrun]
    unfold publishEvents
    simp [List.append_assoc]

theorem C6_witness :
    (processEntry argsPub feedA 0 ⟨0, []⟩ (get_entry entryA)).1.dupes =
      update_dupes [] (fieldValue (get_entry entryA) FieldName.link) :=
  ((C6_dedupe argsPub feedA 0 ⟨0, []⟩ (get_entry entryA) FieldName.link
    rfl rfl).2.2.2 (by decide)).1

/-- C9: with throttling on, in a non-dry run, an entry that reaches the
publish step ends its iteration with the publish event followed by the pause:
the sleep of `10 + r % 20` seconds is the final event, its duration lies in
`[10, 30)`, and every duration in `[10, 30)` is attainable for some randomness
(the uniform support of `randrange(10, 30)`). -/
theorem C9_throttle (args : Args) (feed : FeedConfig) (r : Nat) (s : LoopSt)
    (e : Entry) (hdry : args.dry_run = false) (hdel : args.delay = true)
    (hpub : args.dedupe = none ∨
      ∃ f, args.dedupe = some f ∧ fieldValue e f ∉ s.dupes) :
    (∃ pre, (processEntry args feed r s e).2 =
       pre ++ [Event.publish (entryText feed.template e) (imageList feed e).length,
               Event.print (delayMsg (delayOf r)), Event.sleep (delayOf r)]) ∧
    10 ≤ delayOf r ∧ delayOf r < 30 ∧
    (∀ d, 10 ≤ d → d < 30 → ∃ q, delayOf q = d) := by
  refine ⟨?_, ?_, ?_, ?_⟩
  · have hpubEvs : publishEvents args feed r e =
        (imageList feed e).map Event.mediaUpload ++
        [Event.publish (entryText feed.template e) (imageList feed e).length,
         Event.print (delayMsg (delayOf r)), Event.sleep (delayOf r)] := by
      unfold publishEvents
      rw [hdel]
      simp [List.append_assoc]
    rcases hpub with hnone | ⟨f, hf, hmem⟩
    · refine ⟨(if args.verbose then
        [Event.print (entryText feed.template e)] else []) ++
        (imageList feed e).map Event.mediaUpload, ?_⟩
      unfold processEntry
      rw [hdry, hnone]
      simp only [Bool.false_eq_true, if_false]
      rw [hpubEvs]
      simp [List.append_assoc]
    · refine ⟨(if args.verbose then
        [Event.print (entryText feed.template e)] else []) ++
        [Event.recordDupe (fieldValue e f)] ++
        (imageList feed e).map Event.mediaUpload, ?_⟩
      unfold processEntry
      rw [hdry, hf]
      simp only [Bool.false_eq_true, if_false, if_neg hmem]
      rw [hpubEvs]
      simp [List.append_assoc]
  · unfold delayOf; omega
  · unfold delayOf
    have := Nat.mod_lt r (show 0 < 20 by omega)
    omega
  · intro d h10 h30
    refine ⟨d - 10, ?_⟩
    unfold delayOf
    rw [Nat.mod_eq_of_lt (by omega)]
    omega

theorem C9_witness :
    10 ≤ delayOf 0 ∧ delayOf 0 < 30 ∧
    (∃ pre, (processEntry argsDelay feedA 0 ⟨0, []⟩ (get_entry entryA)).2 =
       pre ++ [Event.publish (entryText feedA.template (get_entry entryA))
                 (imageList feedA (get_entry entryA)).length,
               Event.print (delayMsg (delayOf 0)), Event.sleep (delayOf 0)]) :=
  ⟨(C9_throttle argsDelay feedA 0 ⟨0, []⟩ (get_entry entryA) rfl rfl
      (Or.inl rfl)).2.1,
   (C9_throttle argsDelay feedA 0 ⟨0, []⟩ (get_entry entryA) rfl rfl
      (Or.inl rfl)).2.2.1,
   (C9_throttle argsDelay feedA 0 ⟨0, []⟩ (get_entry entryA) rfl rfl
      (Or.inl rfl)).1⟩

/-- C10: for an absent or empty summary `find_images` returns `None` (not an
empty list), the normalized entry's `images` field is therefore `None`, the
image-attachment guard treats it as falsy, and no image is ever fetched or
uploaded for such an entry. -/
theorem C10_no_images (e : RawEntry) (args : Args) (feed : FeedConfig)
    (r : Nat) (s : LoopSt) (hsum : e.summary.raw = []) :
    find_images e.summary = none ∧
    (get_entry e).images = none ∧
    imageList feed (get_entry e) = [] ∧
    (∀ u, Event.mediaUpload u ∉ (processEntry args feed r s (get_entry e)).2) := by
  have hfind : find_images e.summary = none := by
    unfold find_images
    rw [if_pos hsum]
  have himg : (get_entry e).images = none := hfind
  have hlist : imageList feed (get_entry e) = [] := by
    unfold imageList
    rw [himg]
    simp [pyTruthyImages]
  refine ⟨hfind, himg, hlist, ?_⟩
  intro u
  have hpubEvs : ∀ v ∈ publishEvents args feed r (get_entry e),
      v ≠ Event.mediaUpload u := by
    intro v hv
    unfold publishEvents at hv
    rw [hlist] at hv
    simp only [List.map_nil, List.nil_append] at hv
    rcases List.mem_append.mp hv with h1 | h2
    · simp only [List.mem_singleton] at h1
      subst h1
      exact fun hcon => Event.noConfusion hcon
    · split at h2
      · rcases List.mem_cons.mp h2 with h3 | h3
        · subst h3; exact fun hcon => Event.noConfusion hcon
        · simp only [List.mem_singleton] at h3
          subst h3; exact fun hcon => Event.noConfusion hcon
      · simp at h2
  have hnp : Event.mediaUpload u ∉ publishEvents args feed r (get_entry e) :=
    fun hmem => hpubEvs _ hmem rfl
  unfold processEntry
  dsimp only
  split
  · simp
  · split
    · split
      · dsimp only
        intro hmem
        rcases List.mem_append.mp hmem with h1 | h1 <;> (split at h1 <;> simp_all)
      · dsimp only
        intro hmem
        rcases List.mem_append.mp hmem with h1 | h1
        · rcases List.mem_append.mp h1 with h2 | h2
          · split at h2 <;> simp_all
          · simp at h2
        · exact hnp h1
    · dsimp only
      intro hmem
      rcases List.mem_append.mp hmem with h1 | h1
      · split at h1 <;> simp_all
      · exact hnp h1

theorem C10_witness :
    find_images entryA.summary = none ∧
    Event.mediaUpload "u".toList ∉
      (processEntry argsPub feedA 0 ⟨0, []⟩ (get_entry entryA)).2 :=
  ⟨(C10_no_images entryA argsPub feedA 0 ⟨0, []⟩ rfl).1,
   (C10_no_images entryA argsPub feedA 0 ⟨0, []⟩ rfl).2.2.2 "u".toList⟩

theorem processFeed_dict (args : Args) (stU : List (PyStr × Instant))
    (m : List (PyStr × List PyStr)) (feed : FeedConfig) (fetched : FetchResult)
    (now : Instant) (rng : Nat → Nat) :
    processFeed args ⟨stU, .dict m⟩ feed fetched now rng =
      (let rd := ddRead minInstant stU feed.url
       let rdd := ddRead [] m feed.url
       let fetchEvs : List Event :=
         if args.verbose then [.print (fetchMsg feed.url rd.1)] else []
       let entries := get_feed fetched now (some rd.1)
       let res := entryLoop args feed rng 0 entries (⟨rd.1, rdd.1⟩, fetchEvs)
       if args.dry_run then .ok (⟨rd.2, .dict rdd.2⟩, res.2)
       else
         .ok (⟨dictSet rd.2 feed.url res.1.newest_post, .list res.1.dupes⟩,
           res.2 ++ [.save (save_state ⟨dictSet rd.2 feed.url res.1.newest_post,
             .list res.1.dupes⟩)])) := rfl

theorem processFeed_list (args : Args) (stU : List (PyStr × Instant))
    (l : List PyStr) (feed : FeedConfig) (fetched : FetchResult)
    (now : Instant) (rng : Nat → Nat) :
    processFeed args ⟨stU, .list l⟩ feed fetched now rng = .error .typeError := rfl

theorem entryLoop_dry (args : Args) (feed : FeedConfig) (rng : Nat → Nat)
    (h : args.dry_run = true) :
    ∀ (entries : List Entry) (i : Nat) (acc : LoopSt × List Event),
      (entryLoop args feed rng i entries acc).1.dupes = acc.1.dupes ∧
      (entryLoop args feed rng i entries acc).2 =
        acc.2 ++ entries.map (fun e => Event.print (entryText feed.template e)) := by
  intro entries
  induction entries with
  | nil => intro i acc; exact ⟨rfl, by simp [entryLoop]⟩
  | cons e rest ih =>
      intro i acc
      have hpe : processEntry args feed (rng i) acc.1 e =
          (⟨max acc.1.newest_post e.updated, acc.1.dupes⟩,
           [Event.print (entryText feed.template e)]) := by
        simp [processEntry, h]
      show (entryLoop args feed rng (i + 1) rest
          ((processEntry args feed (rng i) acc.1 e).1,
           acc.2 ++ (processEntry args feed (rng i) acc.1 e).2)).1.dupes = _ ∧
        (entryLoop args feed rng (i + 1) rest
          ((processEntry args feed (rng i) acc.1 e).1,
           acc.2 ++ (processEntry args feed (rng i) acc.1 e).2)).2 = _
      rw [hpe]
      obtain ⟨ih1, ih2⟩ := ih (i + 1)
        (⟨max acc.1.newest_post e.updated, acc.1.dupes⟩,
         acc.2 ++ [Event.print (entryText feed.template e)])
      refine ⟨ih1, ?_⟩
      rw [ih2]
      simp

/-- C7: in a dry run every feed's processing prints the rendered text of each
selected entry and does nothing else: the event trace consists of console
prints only (so no publish call and no state-file write occurs), and the
resulting in-memory state agrees with the initial state on every feed's
watermark and ledger. -/
theorem C7_dry_run (args : Args) (st : RunState) (feed : FeedConfig)
    (fetched : FetchResult) (now : Instant) (rng : Nat → Nat)
    (m : List (PyStr × List PyStr)) (hdry : args.dry_run = true)
    (hdict : st.dupecheck = DupeVal.dict m) :
    ∃ st', processFeed args st feed fetched now rng =
        .ok (st',
          (if args.verbose then
            [Event.print (fetchMsg feed.url (valueOf st feed.url))] else []) ++
          (get_feed fetched now (some (valueOf st feed.url))).map
            (fun e => Event.print (entryText feed.template e))) ∧
      (∀ u, valueOf st' u = valueOf st u) ∧
      (∀ u, dupesOf st' u = dupesOf st u) := by
  obtain ⟨stU, stD⟩ := st
  dsimp only at hdict
  subst hdict
  have hval : valueOf ⟨stU, DupeVal.dict m⟩ feed.url =
      (ddRead minInstant stU feed.url).1 := (ddRead_fst _ _ _).symm
  refine ⟨⟨(ddRead minInstant stU feed.url).2,
    .dict (ddRead [] m feed.url).2⟩, ?_, ?_, ?_⟩
  · rw [processFeed_dict]
    dsimp only
    rw [if_pos hdry]
    have hloop := (entryLoop_dry args feed rng hdry
      (get_feed fetched now (some (ddRead minInstant stU feed.url).1)) 0
      (⟨(ddRead minInstant stU feed.url).1, (ddRead [] m feed.url).1⟩,
       if args.verbose then
         [.print (fetchMsg feed.url (ddRead minInstant stU feed.url).1)]
       else [])).2
    rw [hloop, hval]
  · intro u
    show (dictGet (ddRead minInstant stU feed.url).2 u).getD minInstant = _
    rw [getD_ddRead]
    rfl
  · intro u
    show some ((dictGet (ddRead [] m feed.url).2 u).getD []) = _
    rw [getD_ddRead]
    rfl

theorem C7_witness :
    processFeed argsDry defaultState feedA (FetchResult.ok [entryA]) 100 rng0 =
      .ok (stDryOut,
        (get_feed (FetchResult.ok [entryA]) 100
          (some (valueOf defaultState feedA.url))).map
          (fun e => Event.print (entryText feedA.template e))) := by
  obtain ⟨st', h1, h2, h3⟩ := C7_dry_run argsDry defaultState feedA
    (FetchResult.ok [entryA]) 100 rng0 [] rfl rfl
  have hst : st' = stDryOut := by
    have := h1
    rw [show processFeed argsDry defaultState feedA
        (FetchResult.ok [entryA]) 100 rng0 =
      .ok (stDryOut,
        (get_feed (FetchResult.ok [entryA]) 100
          (some (valueOf defaultState feedA.url))).map
          (fun e => Event.print (entryText feedA.template e))) from rfl] at this
    injection this with hpair
    exact (congrArg Prod.fst hpair).symm
  rw [← hst]
  exact h1

theorem processFeed_mono (args : Args) (st : RunState) (feed : FeedConfig)
    (fetched : FetchResult) (now : Instant) (rng : Nat → Nat)
    (st' : RunState) (evs : List Event)
    (h : processFeed args st feed fetched now rng = .ok (st', evs)) :
    ∀ u, valueOf st u ≤ valueOf st' u := by
  obtain ⟨stU, stD⟩ := st
  cases stD with
  | list l =>
      rw [processFeed_list] at h
      exact absurd h (by simp)
  | dict m =>
      rw [processFeed_dict] at h
      dsimp only at h
      by_cases hdry : args.dry_run
      · rw [if_pos hdry] at h
        injection h with hpair
        injection hpair with ha hb
        subst ha
        intro u
        show _ ≤ (dictGet (ddRead minInstant stU feed.url).2 u).getD minInstant
        rw [getD_ddRead]
        exact le_refl _
      · rw [if_neg hdry] at h
        injection h with hpair
        injection hpair with ha hb
        subst ha
        intro u
        show _ ≤ (dictGet (dictSet (ddRead minInstant stU feed.url).2 feed.url
          _) u).getD minInstant
        rw [dictGet_dictSet]
        by_cases hu : feed.url = u
        · rw [if_pos hu]
          subst hu
          show valueOf ⟨stU, DupeVal.dict m⟩ feed.url ≤ _
          rw [Option.getD_some]
          rw [entryLoop_newest]
          have hstart : valueOf ⟨stU, DupeVal.dict m⟩ feed.url =
              (ddRead minInstant stU feed.url).1 := (ddRead_fst _ _ _).symm
          rw [hstart]
          exact le_foldl_max _ _
        · rw [if_neg hu]
          show valueOf ⟨stU, DupeVal.dict m⟩ u ≤ _
          rw [getD_ddRead]
          exact le_refl _

theorem runMany_mono (args : Args) :
    ∀ (inputs : List FeedInput) (st st' : RunState),
      runMany args inputs st = .ok st' → ∀ u, valueOf st u ≤ valueOf st' u := by
  intro inputs
  induction inputs with
  | nil =>
      intro st st' h u
      injection h with h1
      rw [h1]
  | cons ip rest ih =>
      obtain ⟨feed, fr, now, rng⟩ := ip
      intro st st' h u
      unfold runMany at h
      cases hpf : processFeed args st feed fr now rng with
      | error e => rw [hpf] at h; exact absurd h (by simp)
      | ok pr =>
          rw [hpf] at h
          dsimp only at h
          exact le_trans (processFeed_mono args st feed fr now rng pr.1 pr.2
            (by rw [hpf]) u) (ih pr.1 st' h u)

theorem parseUpdated_save (l : List (PyStr × Instant)) :
    parseUpdated (l.map (fun kv => (kv.1, isoformat kv.2))) = .ok l := by
  induction l with
  | nil => rfl
  | cons kv rest ih =>
      obtain ⟨k, v⟩ := kv
      show parseUpdated ((k, isoformat v) :: _) = _
      unfold parseUpdated
      rw [parseDt_isoformat, ih]

theorem read_save_roundtrip (st : RunState) (m : List (PyStr × List PyStr))
    (hdict : st.dupecheck = DupeVal.dict m) :
    read_state (some (save_state st)) = .ok st := by
  obtain ⟨stU, stD⟩ := st
  dsimp only at hdict
  subst hdict
  show read_state (some ⟨stU.map (fun kv => (kv.1, isoformat kv.2)),
    DupeJson.dict m⟩) = _
  unfold read_state
  dsimp only
  rw [parseUpdated_save]

/-- C4: the watermark of an unseen feed defaults to the minimum instant; each
entry advances the in-memory candidate to `max(current, entry.updated)`; a
feed-loop iteration never decreases any feed's stored watermark, nor does any
sequence of iterations; and saving then reloading a well-formed state
preserves it exactly (so watermarks survive runs and are never rewound). -/
theorem C4_watermark :
    (∀ u, valueOf defaultState u = minInstant) ∧
    (∀ args feed r s e,
      (processEntry args feed r s e).1.newest_post =
        max s.newest_post e.updated) ∧
    (∀ args st feed fetched now rng st' evs,
      processFeed args st feed fetched now rng = .ok (st', evs) →
      ∀ u, valueOf st u ≤ valueOf st' u) ∧
    (∀ args inputs st st', runMany args inputs st = .ok st' →
      ∀ u, valueOf st u ≤ valueOf st' u) ∧
    (∀ st m, st.dupecheck = DupeVal.dict m →
      read_state (some (save_state st)) = .ok st) := by
  refine ⟨fun u => rfl, processEntry_newest, ?_, ?_, ?_⟩
  · intro args st feed fetched now rng st' evs h
    exact processFeed_mono args st feed fetched now rng st' evs h
  · intro args inputs st st' h
    exact runMany_mono args inputs st st' h
  · intro st m hdict
    exact read_save_roundtrip st m hdict

theorem C4_witness :
    valueOf defaultState "f".toList ≤ valueOf stDryOut "f".toList ∧
    valueOf defaultState "f".toList ≤ valueOf stB "f".toList ∧
    read_state (some (save_state defaultState)) = .ok defaultState :=
  ⟨C4_watermark.2.2.1 argsDry defaultState feedA (FetchResult.ok []) 0 rng0
      stDryOut [] rfl "f".toList,
   C4_watermark.2.2.2.1 argsPub [(feedA, FetchResult.ok [entryA], 100, rng0)]
      defaultState stB rfl "f".toList,
   C4_watermark.2.2.2.2 defaultState [] rfl⟩

/-- C8: a network or parse failure while fetching a feed (which feedparser
surfaces as a document with no entries, raising nothing) makes the feed-loop
iteration behave exactly as a successful fetch with zero entries: the run
continues with the remaining feeds unchanged, every feed's watermark value is
left untouched, and the failed feed's ledger content is left untouched (in a
dry run the ledger mapping is unchanged; in a non-dry run the `dupecheck` slot
holds the feed's unchanged list, exactly as after any other feed iteration). -/
theorem C8_fetch_failure (args : Args) (st : RunState) (feed : FeedConfig)
    (now : Instant) (rng : Nat → Nat) :
    processFeed args st feed FetchResult.failed now rng =
      processFeed args st feed (FetchResult.ok []) now rng ∧
    (∀ rest, runMany args ((feed, FetchResult.failed, now, rng) :: rest) st =
       runMany args ((feed, FetchResult.ok [], now, rng) :: rest) st) ∧
    (∀ st' evs,
       processFeed args st feed FetchResult.failed now rng = .ok (st', evs) →
       ∀ u, valueOf st' u = valueOf st u) ∧
    (∀ m, st.dupecheck = DupeVal.dict m →
       (args.dry_run = true → ∀ st' evs,
          processFeed args st feed FetchResult.failed now rng = .ok (st', evs) →
          ∀ u, dupesOf st' u = dupesOf st u) ∧
       (args.dry_run = false → ∀ st' evs,
          processFeed args st feed FetchResult.failed now rng = .ok (st', evs) →
          st'.dupecheck = DupeVal.list ((dictGet m feed.url).getD []))) := by
  refine ⟨rfl, fun rest => rfl, ?_, ?_⟩
  · intro st' evs h u
    obtain ⟨stU, stD⟩ := st
    cases stD with
    | list l =>
        rw [processFeed_list] at h
        exact absurd h (by simp)
    | dict m =>
        rw [processFeed_dict] at h
        dsimp only at h
        rw [show get_feed FetchResult.failed now
            (some (ddRead minInstant stU feed.url).1) = [] from rfl] at h
        by_cases hdry : args.dry_run
        · rw [if_pos hdry] at h
          injection h with hpair
          injection hpair with ha hb
          subst ha
          show (dictGet (ddRead minInstant stU feed.url).2 u).getD minInstant = _
          rw [getD_ddRead]
          rfl
        · rw [if_neg hdry] at h
          injection h with hpair
          injection hpair with ha hb
          subst ha
          show (dictGet (dictSet (ddRead minInstant stU feed.url).2 feed.url
            _) u).getD minInstant = _
          rw [dictGet_dictSet]
          by_cases hu : feed.url = u
          · rw [if_pos hu]
            subst hu
            show ((entryLoop args feed rng 0 [] _).1.newest_post : Instant) = _
            show ((ddRead minInstant stU feed.url).1 : Instant) = _
            rw [ddRead_fst]
            rfl
          · rw [if_neg hu]
            show (dictGet (ddRead minInstant stU feed.url).2 u).getD minInstant = _
            rw [getD_ddRead]
            rfl
  · intro m hdict
    obtain ⟨stU, stD⟩ := st
    dsimp only at hdict
    subst hdict
    constructor
    · intro hdry st' evs h u
      rw [processFeed_dict] at h
      dsimp only at h
      rw [if_pos hdry] at h
      injection h with hpair
      injection hpair with ha hb
      subst ha
      show some ((dictGet (ddRead [] m feed.url).2 u).getD []) = _
      rw [getD_ddRead]
      rfl
    · intro hdry st' evs h
      rw [processFeed_dict] at h
      dsimp only at h
      rw [show get_feed FetchResult.failed now
          (some (ddRead minInstant stU feed.url).1) = [] from rfl] at h
      rw [if_neg (by rw [hdry]; exact Bool.false_ne_true)] at h
      injection h with hpair
      injection hpair with ha hb
      subst ha
      show DupeVal.list ((entryLoop args feed rng 0 [] _).1.dupes) = _
      show DupeVal.list ((ddRead [] m feed.url).1) = _
      rw [ddRead_fst]

theorem C8_witness :
    processFeed argsDry defaultState feedA FetchResult.failed 0 rng0 =
      processFeed argsDry defaultState feedA (FetchResult.ok []) 0 rng0 ∧
    valueOf stDryOut "f".toList = valueOf defaultState "f".toList :=
  ⟨(C8_fetch_failure argsDry defaultState feedA 0 rng0).1,
   (C8_fetch_failure argsDry defaultState feedA 0 rng0).2.2.1 stDryOut []
     rfl "f".toList⟩

/-- C2 fails on the code: line 105 (`state['dupecheck'] = dupes`) rebinds the
dedupe mapping to a single feed's list.  Concretely, a non-dry run of one feed
with one entry, deduping on `link`, leaves a state whose `dupecheck` is a bare
list; `save_state` then writes `"dupecheck"` as a JSON array, and
`read_state` on that very file raises `ValueError` (`dict.update` over the
stored strings) instead of returning the state — the save/load round-trip
fails for every reachable state with a recorded dedupe value.  A second
configured feed in the same run dies of `TypeError` for the same reason. -/
theorem C2_roundtrip_bug :
    processFeed argsPub defaultState feedA (FetchResult.ok [entryA]) 100 rng0 =
      .ok (stB, evsB) ∧
    save_state stB = ⟨[("f".toList, "3".toList)],
      DupeJson.arr ["https://x".toList]⟩ ∧
    read_state (some (save_state stB)) = .error PyErr.valueError ∧
    runMany argsPub [(feedA, FetchResult.ok [entryA], 100, rng0),
      (feedA, FetchResult.ok [], 100, rng0)] defaultState =
      .error PyErr.typeError :=
  ⟨rfl, rfl, rfl, rfl⟩
